import Mathlib

/-!
Verification of the agentjs repository (src/index.ts, src/tools/schema.ts,
src/tools/index.ts): a shallow embedding of

* the JSON value model and the schema validation engine (`parseString`,
  `parseNumber`, `parseInteger`, `parseBoolean`, `parseNull`, `parseArray`,
  `parseObject`, `parseAny`, `parse` of src/tools/schema.ts),
* the streaming tool-call aggregation (`collectToolCallRequests` of
  src/index.ts),
* the per-turn dispatch loop of `makeAgent` (src/index.ts), and
* the tool-call boundary of `makeTool` (src/tools/index.ts),

followed by theorems settling the specification claims about them.

JavaScript numbers are modelled as `Rat` (exact rationals; NaN/Infinity, which
no claim touches, are not modelled).  JavaScript `undefined` at an object key
is modelled as `Option.none` from a lookup.  Thrown exceptions are modelled
with `Except`.
-/

/-- A JSON value, as produced by `JSON.parse` and consumed by the validator. -/
inductive Json where
  | str (s : String)
  | num (q : Rat)
  | bool (b : Bool)
  | null
  | arr (elems : List Json)
  | obj (fields : List (String × Json))
deriving Repr

/-- JavaScript truthiness of a number (`0` and `NaN` are falsy; we model
numbers as `Rat`, so the test is `≠ 0`).  Used for the `schema.minimum && ...`
style guards of src/tools/schema.ts. -/
def ratTruthy (q : Rat) : Bool := q != 0

/-- JavaScript truthiness of a length/count bound (a `number` holding a
`Nat` in practice): `0` is falsy. -/
def natTruthy (n : Nat) : Bool := n != 0

/-- Property lookup `input[key]` as performed by `parseObject` on a value
whose `typeof` is `"object"`: association lookup on plain objects; on arrays,
`"length"` and canonical numeric strings reach the elements (canonical means
`String(n) === key`).  `none` models `undefined`. -/
def jsGet : Json → String → Option Json
  | Json.obj kvs, k => (kvs.find? (fun kv => kv.1 == k)).map (fun kv => kv.2)
  | Json.arr xs, k =>
    if k == "length" then some (Json.num xs.length)
    else
      match k.toNat? with
      | some n => if toString n == k then xs.get? n else none
      | none => none
  | _, _ => none

/-- Property assignment `acc[key] = v` on a plain object: an existing key
keeps its position and gets the new value, a new key is appended. -/
def jsSet (kvs : List (String × Json)) (k : String) (v : Json) : List (String × Json) :=
  if kvs.any (fun kv => kv.1 == k) then
    kvs.map (fun kv => if kv.1 == k then (k, v) else kv)
  else
    kvs ++ [(k, v)]

/-- `typeof input === "object" && input !== null`: true for plain objects and
for arrays (a JavaScript quirk `parseObject` inherits), false for `null` and
every primitive. -/
def isJsObject : Json → Bool
  | Json.obj _ => true
  | Json.arr _ => true
  | _ => false

/-- The characters of JavaScript's `\s` class that can occur in the strings we
model (the principal ASCII whitespace characters). -/
def jsWhitespace (c : Char) : Bool :=
  (c == ' ') || (c == '\t') || (c == '\n') || (c == '\r') || (c == '\x0b') || (c == '\x0c')

/-- `isValidEmail` of src/tools/schema.ts: the regular expression
`^[^\s@]+@[^\s@]+\.[^\s@]+$` matches exactly the strings of the form
`A@B.C` with `A`, `B`, `C` nonempty and free of whitespace and `@`
(`B` and `C` may themselves contain dots); equivalently, the string has
exactly one `@`, nonempty whitespace-free parts around it, and the part after
the `@` has a dot that is neither its first nor its last character. -/
def isValidEmail (email : String) : Bool :=
  match email.splitOn "@" with
  | [user, host] =>
    user != "" && host != "" &&
    user.toList.all (fun c => !(jsWhitespace c)) &&
    host.toList.all (fun c => !(jsWhitespace c)) &&
    ((host.toList.drop 1).dropLast).contains '.'
  | _ => false

/-- The host-environment predicates `isValidUri` (WHATWG `new URL`) and
`isValidDateTime` (`new Date(...)` parsing) of src/tools/schema.ts call into
the JavaScript runtime; they are pure `String → Bool` functions whose internals
no claim depends on, so they are abstracted as parameters of the embedding. -/
structure Formats where
  isValidUri : String → Bool
  isValidDateTime : String → Bool

/-- A fixed instantiation of the host predicates, used for concrete
counterexamples and witnesses (none of which involve format checks). -/
def F0 : Formats := ⟨fun _ => false, fun _ => false⟩

/-- `StringFormat` of src/tools/schema.ts. -/
inductive StringFormat where
  | email
  | uri
  | dateTime
deriving DecidableEq

mutual
/-- The `Schema` union of src/tools/schema.ts, a closed tagged variant.
Optional constraint fields become `Option`s (`none` = the field is absent,
i.e. `undefined`). -/
inductive Schema where
  | string (minLength maxLength : Option Nat) (format : Option StringFormat)
      (strEnum : Option (List String))
  | number (minimum maximum : Option Rat) (numEnum : Option (List Rat))
  | integer (minimum maximum : Option Rat) (numEnum : Option (List Rat))
  | boolean
  | null
  | array (items : Schema) (minItems maxItems : Option Nat)
  | object (properties : Props) (required : Option (List String))

/-- The property map of an `ObjectSchema`: an ordered list of
`key ↦ (PropertySchema, optional default)` entries, in declaration order
(the order `Object.entries` yields).  The TypeScript `Record` type guarantees
the keys are distinct. -/
inductive Props where
  | nil
  | cons (key : String) (propSchema : Schema) (dflt : Option Json) (rest : Props)
end

/-- The `ParseError` class of src/tools/schema.ts: message, field path and
offending input. -/
structure ParseError where
  message : String
  path : String
  input : Json

mutual
/-- JavaScript string coercion `String(x)` as used by the template literals in
the error messages (`` `input is not a string: ${input}` ``): strings unquoted,
`[object Object]` for plain objects, comma-joined elements for arrays. -/
def jsToString : Json → String
  | Json.str s => s
  | Json.num q => toString q
  | Json.bool b => if b then "true" else "false"
  | Json.null => "null"
  | Json.obj _ => "[object Object]"
  | Json.arr xs => String.intercalate "," (xs.attach.map (fun x => jsToStringElem x.1))
termination_by j => (sizeOf j, 0)
decreasing_by
  have := List.sizeOf_lt_of_mem x.2
  simp only [Json.arr.sizeOf_spec] at *
  exact Prod.Lex.left _ _ (by omega)

/-- Element coercion inside `Array.prototype.toString`: `null` becomes the
empty string, everything else its `String(...)` form. -/
def jsToStringElem (x : Json) : String :=
  match x with
  | Json.null => ""
  | y => jsToString y
termination_by (sizeOf x, 1)
decreasing_by exact Prod.Lex.right _ (by omega)
end

/-- JSON string-literal escaping as performed by `JSON.stringify` (the
characters relevant to the modelled strings; exotic control characters are
not modelled). -/
def escapeJsonChar (c : Char) : String :=
  if c == '"' then "\\\"" else if c == '\\' then "\\\\"
  else if c == '\n' then "\\n" else if c == '\r' then "\\r" else if c == '\t' then "\\t"
  else String.singleton c

/-- Escape every character of a string for a JSON string literal. -/
def escapeJsonString (s : String) : String :=
  String.join (s.toList.map escapeJsonChar)

/-- A JSON string literal, quotes included. -/
def jsonStringLit (s : String) : String :=
  "\"" ++ escapeJsonString s ++ "\""

/-- `JSON.stringify` on a JSON value (numbers are printed through `Rat`'s
`toString`, a faithful rendering for the integral numbers the claims use). -/
def stringifyJson : Json → String
  | Json.str s => jsonStringLit s
  | Json.num q => toString q
  | Json.bool b => if b then "true" else "false"
  | Json.null => "null"
  | Json.arr xs =>
    "[" ++ String.intercalate "," (xs.attach.map (fun x => stringifyJson x.1)) ++ "]"
  | Json.obj kvs =>
    "\x7b" ++
      String.intercalate ","
        (kvs.attach.map (fun kv => jsonStringLit kv.1.1 ++ ":" ++ stringifyJson kv.1.2)) ++
      "\x7d"
termination_by j => sizeOf j
decreasing_by
  · have := List.sizeOf_lt_of_mem x.2
    simp only [Json.arr.sizeOf_spec] at *
    omega
  · have h1 := List.sizeOf_lt_of_mem kv.2
    obtain ⟨⟨k, v⟩, hmem⟩ := kv
    simp only [Json.obj.sizeOf_spec, Prod.mk.sizeOf_spec] at *
    omega

/-- `JSON.stringify(schema.enum)` for a string enumeration. -/
def stringEnumJson (l : List String) : String :=
  "[" ++ String.intercalate "," (l.map jsonStringLit) ++ "]"

/-- `JSON.stringify(schema.enum)` for a number enumeration. -/
def numberEnumJson (l : List Rat) : String :=
  "[" ++ String.intercalate "," (l.map toString) ++ "]"

/-- The guard `schema.maxLength && input.length > schema.maxLength` of
`parseString` (and `schema.maxItems && ...` of `parseArray`): the bound must
be declared AND truthy (nonzero) for the comparison to run. -/
def maxBoundViolation (maxB : Option Nat) (len : Nat) : Bool :=
  match maxB with
  | some m => natTruthy m && decide (len > m)
  | none => false

/-- The guard `schema.minLength && input.length < schema.minLength` of
`parseString` (and `schema.minItems && ...` of `parseArray`). -/
def minBoundViolation (minB : Option Nat) (len : Nat) : Bool :=
  match minB with
  | some m => natTruthy m && decide (len < m)
  | none => false

/-- The guard `schema.enum && !schema.enum.includes(input)` for strings
(a declared empty enumeration is a truthy array, so it rejects everything). -/
def strEnumViolation (en : Option (List String)) (s : String) : Bool :=
  match en with
  | some l => !(l.contains s)
  | none => false

/-- The guard `schema.enum && !schema.enum.includes(input)` for numbers. -/
def numEnumViolation (en : Option (List Rat)) (q : Rat) : Bool :=
  match en with
  | some l => !(l.contains q)
  | none => false

/-- The guard `schema.minimum && input < schema.minimum` of `parseNumber` and
`parseInteger`: a declared minimum of `0` is falsy and disables the check. -/
def minimumViolation (mi : Option Rat) (q : Rat) : Bool :=
  match mi with
  | some m => ratTruthy m && decide (q < m)
  | none => false

/-- The guard `schema.maximum && input > schema.maximum` of `parseNumber` and
`parseInteger`. -/
def maximumViolation (ma : Option Rat) (q : Rat) : Bool :=
  match ma with
  | some m => ratTruthy m && decide (q > m)
  | none => false

/-- `Number.isInteger` on our exact-rational number model. -/
def jsIsInteger (q : Rat) : Bool := q.den == 1

/-- `parseString` of src/tools/schema.ts.  Checks run in source order:
type, maxLength, minLength, enum, email format, uri format, date-time
format; the first violation throws; success returns the input unchanged. -/
def parseString (F : Formats) (minL maxL : Option Nat) (fmt : Option StringFormat)
    (en : Option (List String)) (path : String) (input : Json) : Except ParseError Json :=
  match input with
  | Json.str s =>
    if maxBoundViolation maxL s.length then
      Except.error ⟨"string is too long: " ++ toString s.length ++ " > " ++ toString (maxL.getD 0), path, input⟩
    else if minBoundViolation minL s.length then
      Except.error ⟨"string is too short: " ++ toString s.length ++ " < " ++ toString (minL.getD 0), path, input⟩
    else if strEnumViolation en s then
      Except.error ⟨"string is not in enum " ++ stringEnumJson (en.getD []) ++ ": " ++ s, path, input⟩
    else if fmt == some StringFormat.email && !(isValidEmail s) then
      Except.error ⟨"string is not a valid email: " ++ s, path, input⟩
    else if fmt == some StringFormat.uri && !(F.isValidUri s) then
      Except.error ⟨"string is not a valid uri: " ++ s, path, input⟩
    else if fmt == some StringFormat.dateTime && !(F.isValidDateTime s) then
      Except.error ⟨"string is not a valid date-time: " ++ s, path, input⟩
    else
      Except.ok input
  | _ => Except.error ⟨"input is not a string: " ++ jsToString input, path, input⟩

/-- `parseNumber` of src/tools/schema.ts: type check, then enum, minimum,
maximum (each bound guarded by truthiness); success returns the input. -/
def parseNumber (mi ma : Option Rat) (en : Option (List Rat))
    (path : String) (input : Json) : Except ParseError Json :=
  match input with
  | Json.num q =>
    if numEnumViolation en q then
      Except.error ⟨"number is not in enum " ++ numberEnumJson (en.getD []) ++ ": " ++ toString q, path, input⟩
    else if minimumViolation mi q then
      Except.error ⟨"number is too small: " ++ toString q ++ " < " ++ toString (mi.getD 0), path, input⟩
    else if maximumViolation ma q then
      Except.error ⟨"number is too large: " ++ toString q ++ " > " ++ toString (ma.getD 0), path, input⟩
    else
      Except.ok input
  | _ => Except.error ⟨"input is not a number: " ++ jsToString input, path, input⟩

/-- `parseInteger` of src/tools/schema.ts: like `parseNumber` with an
additional `Number.isInteger` check right after the type check. -/
def parseInteger (mi ma : Option Rat) (en : Option (List Rat))
    (path : String) (input : Json) : Except ParseError Json :=
  match input with
  | Json.num q =>
    if !(jsIsInteger q) then
      Except.error ⟨"number is not an integer: " ++ toString q, path, input⟩
    else if numEnumViolation en q then
      Except.error ⟨"number is not in enum " ++ numberEnumJson (en.getD []) ++ ": " ++ toString q, path, input⟩
    else if minimumViolation mi q then
      Except.error ⟨"number is too small: " ++ toString q ++ " < " ++ toString (mi.getD 0), path, input⟩
    else if maximumViolation ma q then
      Except.error ⟨"number is too large: " ++ toString q ++ " > " ++ toString (ma.getD 0), path, input⟩
    else
      Except.ok input
  | _ => Except.error ⟨"input is not a number: " ++ jsToString input, path, input⟩

/-- `parseBoolean` of src/tools/schema.ts. -/
def parseBoolean (path : String) (input : Json) : Except ParseError Json :=
  match input with
  | Json.bool _ => Except.ok input
  | _ => Except.error ⟨"input is not a boolean: " ++ jsToString input, path, input⟩

/-- `parseNull` of src/tools/schema.ts. -/
def parseNull (path : String) (input : Json) : Except ParseError Json :=
  match input with
  | Json.null => Except.ok Json.null
  | _ => Except.error ⟨"input is not null: " ++ jsToString input, path, input⟩

/-- The guard `schema.required && schema.required.includes(key)` of
`parseObject` (an absent required list is falsy; a declared — even empty —
list is truthy and membership decides). -/
def requiredContains (req : Option (List String)) (k : String) : Bool :=
  match req with
  | some l => l.contains k
  | none => false

/-- `input.map((item, index) => parseAny(schema.items, path[index], item))`
of `parseArray`: validate each element left to right with the index-suffixed
path, stopping at the first error.  The element validator is passed in, so the
recursion here is plain list recursion. -/
def parseElems (f : String → Json → Except ParseError Json) (path : String) :
    List Json → Nat → Except ParseError (List Json)
  | [], _ => Except.ok []
  | x :: xs, i =>
    match f (path ++ "[" ++ toString i ++ "]") x with
    | Except.ok y =>
      match parseElems f path xs (i + 1) with
      | Except.ok ys => Except.ok (y :: ys)
      | Except.error e => Except.error e
    | Except.error e => Except.error e

mutual
/-- `parseAny` of src/tools/schema.ts: dispatch on the schema tag.  The
`array` and `object` cases inline `parseArray` and `parseObject` (which in the
source are separate functions mutually recursive with `parseAny` through the
element/property recursion). -/
def parseAny (F : Formats) : Schema → String → Json → Except ParseError Json
  | Schema.string minL maxL fmt en, path, input => parseString F minL maxL fmt en path input
  | Schema.number mi ma en, path, input => parseNumber mi ma en path input
  | Schema.integer mi ma en, path, input => parseInteger mi ma en path input
  | Schema.boolean, path, input => parseBoolean path input
  | Schema.null, path, input => parseNull path input
  | Schema.array items minI maxI, path, input =>
    match input with
    | Json.arr xs =>
      if minBoundViolation minI xs.length then
        Except.error ⟨"array is too short: " ++ toString xs.length ++ " < " ++ toString (minI.getD 0), path, input⟩
      else if maxBoundViolation maxI xs.length then
        Except.error ⟨"array is too long: " ++ toString xs.length ++ " > " ++ toString (maxI.getD 0), path, input⟩
      else
        match parseElems (parseAny F items) path xs 0 with
        | Except.ok ys => Except.ok (Json.arr ys)
        | Except.error e => Except.error e
    | _ => Except.error ⟨"input is not an array: " ++ jsToString input, path, input⟩
  | Schema.object props req, path, input =>
    if isJsObject input then
      match parseProps F props req path input [] with
      | Except.ok kvs => Except.ok (Json.obj kvs)
      | Except.error e => Except.error e
    else
      Except.error ⟨"input is not an object: " ++ jsToString input, path, input⟩

/-- The `Object.entries(schema.properties).reduce(...)` body of `parseObject`
(src/tools/schema.ts lines 215-228), with the accumulator `acc` explicit:
for each declared property in declaration order, an absent value first hits
the `required` check (a throw), then default injection, then skip; a present
value is validated recursively at the key-suffixed path. -/
def parseProps (F : Formats) :
    Props → Option (List String) → String → Json → List (String × Json) →
      Except ParseError (List (String × Json))
  | Props.nil, _, _, _, acc => Except.ok acc
  | Props.cons key ps dflt rest, req, path, input, acc =>
    match jsGet input key with
    | none =>
      if requiredContains req key then
        Except.error ⟨"required property \"" ++ key ++ "\" is missing", path, input⟩
      else
        match dflt with
        | some d => parseProps F rest req path input (jsSet acc key d)
        | none => parseProps F rest req path input acc
    | some v =>
      match parseAny F ps (path ++ "." ++ key) v with
      | Except.ok y => parseProps F rest req path input (jsSet acc key y)
      | Except.error e => Except.error e
end

/-- `parse` of src/tools/schema.ts: validation at the root path `""`. -/
def parse (F : Formats) (s : Schema) (input : Json) : Except ParseError Json :=
  parseAny F s "" input

/-- A completed (or in-progress) `ToolCallRequest` record of src/index.ts:
the aggregation target of `collectToolCallRequests`. -/
structure ToolCallRequest where
  id : String
  name : String
  arguments : String
deriving DecidableEq, Repr

/-- The optional `function` fragment of a streamed tool-call delta:
`{ name?: string, arguments?: string }`. -/
structure FnFragment where
  name : Option String
  arguments : Option String
deriving DecidableEq, Repr

/-- One `ChatCompletionChunk...Delta.ToolCall` protocol delta:
`{ index, id?, function? }`. -/
structure ToolCallDelta where
  index : Nat
  id : Option String
  function : Option FnFragment
deriving DecidableEq, Repr

/-- JavaScript truthiness of the optional `id`: `undefined` and the empty
string are falsy (`if (id)` in `collectToolCallRequests`). -/
def idTruthy : Option String → Bool
  | some s => s != ""
  | none => false

/-- The destructuring default
`const { function: { name = "", arguments: args = "" } = {} } = toolCall`:
the effective name fragment of a delta. -/
def fnName (d : ToolCallDelta) : String :=
  match d.function with
  | some f => f.name.getD ""
  | none => ""

/-- The effective arguments fragment of a delta (same defaulting). -/
def fnArgs (d : ToolCallDelta) : String :=
  match d.function with
  | some f => f.arguments.getD ""
  | none => ""

/-- The sparse JavaScript array `toolCallRequests` is modelled as a list of
`Option ToolCallRequest`; `none` is a hole (an index never assigned).
`slot l i` is the element read `l[i]` (`undefined` past the end). -/
def slot (l : List (Option ToolCallRequest)) (i : Nat) : Option ToolCallRequest :=
  l.getD i none

/-- The assignment `toolCallRequests[index] = r` on a JavaScript array:
within bounds it overwrites; past the end it extends the array to length
`index + 1`, creating holes in between. -/
def setSlot (l : List (Option ToolCallRequest)) (i : Nat) (r : ToolCallRequest) :
    List (Option ToolCallRequest) :=
  if i < l.length then
    l.set i (some r)
  else
    l ++ List.replicate (i - l.length) none ++ [some r]

/-- The in-place fragment append
`toolCallRequests[index].name += name; toolCallRequests[index].arguments += args`. -/
def appendSlot (l : List (Option ToolCallRequest)) (i : Nat) (n a : String) :
    List (Option ToolCallRequest) :=
  l.set i ((slot l i).map (fun r =>
    { r with name := r.name ++ n, arguments := r.arguments ++ a }))

/-- The body of the `for (const toolCall of deltaToolCalls)` loop of
`collectToolCallRequests` (src/index.ts lines 52-60) for one delta: a truthy
id starts (or overwrites) the record at the delta's index; otherwise, if the
index is in bounds and holds a record, the fragments are appended; otherwise
the delta is dropped. -/
def collectStep (reqs : List (Option ToolCallRequest)) (d : ToolCallDelta) :
    List (Option ToolCallRequest) :=
  if idTruthy d.id then
    setSlot reqs d.index ⟨d.id.getD "", fnName d, fnArgs d⟩
  else if decide (d.index < reqs.length) && (slot reqs d.index).isSome then
    appendSlot reqs d.index (fnName d) (fnArgs d)
  else
    reqs

/-- `collectToolCallRequests` of src/index.ts, iterated over a whole delta
sequence (the per-chunk calls concatenate, so one fold over all deltas of the
turn is the same computation).  It is a total function: no input raises. -/
def collectToolCallRequests (reqs : List (Option ToolCallRequest))
    (deltas : List ToolCallDelta) : List (Option ToolCallRequest) :=
  deltas.foldl collectStep reqs

/-- The name fragments a delta sequence carries at stream index `i`,
concatenated in arrival order. -/
def namesAt : List ToolCallDelta → Nat → String
  | [], _ => ""
  | d :: ds, i => (if d.index = i then fnName d else "") ++ namesAt ds i

/-- The argument fragments a delta sequence carries at stream index `i`,
concatenated in arrival order. -/
def argsAt : List ToolCallDelta → Nat → String
  | [], _ => ""
  | d :: ds, i => (if d.index = i then fnArgs d else "") ++ argsAt ds i

/-- The deltas of a sequence arriving at stream index `i`, in arrival order
(used to state which delta is first at an index). -/
def deltasAt (ds : List ToolCallDelta) (i : Nat) : List ToolCallDelta :=
  ds.filter (fun d => d.index == i)

/-- The events `makeAgent` yields while dispatching one turn's records:
`yield toolCallRequest` and `yield toolCallResponse(...)` (src/index.ts). -/
inductive EngineEvent where
  | request (id name arguments : String)
  | response (id result : String)
deriving DecidableEq, Repr

/-- An entry pushed onto `assistantMessage.tool_calls`. -/
structure AssistantToolCall where
  id : String
  name : String
  arguments : String
deriving DecidableEq, Repr

/-- A `role: "tool"` message appended to the conversation. -/
structure ToolMessage where
  content : String
  tool_call_id : String
deriving DecidableEq, Repr

/-- What one turn's dispatch loop produces when it completes without
throwing: the yielded events, the tool-call references added to the assistant
message, the appended tool messages, and the final `hasMoreIterations` flag. -/
structure DispatchOut where
  events : List EngineEvent
  toolCalls : List AssistantToolCall
  toolMessages : List ToolMessage
  hasMoreIterations : Bool
deriving DecidableEq, Repr

/-- One iteration of the dispatch loop body (src/index.ts lines 149-172) for
a present record: the request event is always yielded; a known tool name then
adds the tool-call reference, invokes the tool, appends the tool message and
yields the response; an unknown name does nothing further.  Tool handlers are
modelled as total `String → String` (tools built by `makeTool` never throw,
see the tool-contract theorems). -/
def dispatchOne (toolMap : String → Option (String → String)) (r : ToolCallRequest) :
    List EngineEvent × List AssistantToolCall × List ToolMessage :=
  match toolMap r.name with
  | none => ([EngineEvent.request r.id r.name r.arguments], [], [])
  | some call =>
    let result := call r.arguments
    ([EngineEvent.request r.id r.name r.arguments, EngineEvent.response r.id result],
     [⟨r.id, r.name, r.arguments⟩],
     [⟨result, r.id⟩])

/-- The whole `for (const toolCallRequest of toolCallRequests)` loop of
`makeAgent`: `for..of` iterates holes of a sparse array as `undefined`; after
`yield`ing such a hole the loop dereferences `toolCallRequest.name`, which
throws a `TypeError` and aborts the generator (modelled as `Except.error`;
events already yielded before an abort are not tracked).  Each present record
sets `hasMoreIterations = true`. -/
def dispatch (toolMap : String → Option (String → String)) :
    List (Option ToolCallRequest) → Except String DispatchOut
  | [] => Except.ok ⟨[], [], [], false⟩
  | none :: _ =>
    Except.error "TypeError: cannot read properties of undefined (reading name)"
  | some r :: rest =>
    match dispatch toolMap rest with
    | Except.ok out =>
      let one := dispatchOne toolMap r
      Except.ok ⟨one.1 ++ out.events, one.2.1 ++ out.toolCalls,
                 one.2.2 ++ out.toolMessages, true⟩
    | Except.error e => Except.error e

/-- The completed records of a turn: the present entries of the (possibly
sparse) record array, in index order. -/
def completedRecords (reqs : List (Option ToolCallRequest)) : List ToolCallRequest :=
  reqs.filterMap id

/-- One whole turn of the iteration engine after the stream ended: aggregate
the turn's deltas, then run the dispatch loop.  `Except.ok out` with
`out.hasMoreIterations = false` is the `DONE` outcome (the `while` loop
exits and the generator finishes normally); `out.hasMoreIterations = true`
starts another iteration; `Except.error` is an abort of the generator. -/
def turnOutcome (toolMap : String → Option (String → String))
    (deltas : List ToolCallDelta) : Except String DispatchOut :=
  dispatch toolMap (collectToolCallRequests [] deltas)

/-- The thrown values the `try`/`catch` of `makeTool`'s `call` can see:
a `JSON.parse` failure, a schema `ParseError`, or an error thrown by the
handler. -/
inductive ToolError where
  | decodeErr (message : String)
  | parseErr (e : ParseError)
  | handlerErr (message : String)

/-- `JSON.stringify({ error })` for a caught value: a `ParseError` exposes its
enumerable `path` and `input` fields; plain `Error`s serialize to `{}` (their
properties are non-enumerable). -/
def renderToolError : ToolError → String
  | ToolError.decodeErr _ => "\x7b\x7d"
  | ToolError.handlerErr _ => "\x7b\x7d"
  | ToolError.parseErr pe =>
    stringifyJson (Json.obj [("path", Json.str pe.path), ("input", pe.input)])

/-- The serialized error payload `makeTool`'s `call` returns on any failure. -/
def errorPayload (e : ToolError) : String :=
  "\x7b\"error\":" ++ renderToolError e ++ "\x7d"

/-- The `try` body of `makeTool`'s `call` (src/tools/index.ts lines 31-41):
decode the raw text (`JSON.parse`, abstracted as the `decode` parameter),
validate via `parse`, invoke the handler, serialize its string result.  Each
stage's failure is a distinct thrown value. -/
def toolCallE (decode : String → Except String Json) (F : Formats) (sch : Schema)
    (handler : Json → Except String String) (raw : String) : Except ToolError String :=
  match decode raw with
  | Except.error m => Except.error (ToolError.decodeErr m)
  | Except.ok j =>
    match parse F sch j with
    | Except.error pe => Except.error (ToolError.parseErr pe)
    | Except.ok v =>
      match handler v with
      | Except.error m => Except.error (ToolError.handlerErr m)
      | Except.ok r => Except.ok (stringifyJson (Json.str r))

/-- `makeTool(...).call` as a whole: the `try` body with the `catch` that
converts any thrown value into the serialized error payload.  The function is
total — every outcome is a returned string. -/
def makeToolCall (decode : String → Except String Json) (F : Formats) (sch : Schema)
    (handler : Json → Except String String) (raw : String) : String :=
  match toolCallE decode F sch handler raw with
  | Except.ok s => s
  | Except.error e => errorPayload e

theorem slot_nil (i : Nat) : slot [] i = none := rfl

theorem slot_lt_of_some {l : List (Option ToolCallRequest)} {i : Nat} {r : ToolCallRequest}
    (h : slot l i = some r) : i < l.length := by
  by_contra hn
  push_neg at hn
  rw [slot, List.getD_eq_getElem?_getD, List.getElem?_eq_none hn] at h
  simp at h

theorem slot_setSlot_self (l : List (Option ToolCallRequest)) (i : Nat) (r : ToolCallRequest) :
    slot (setSlot l i r) i = some r := by
  unfold setSlot slot
  split
  case isTrue h =>
    rw [List.getD_eq_getElem?_getD, List.getElem?_set_self h]
    rfl
  case isFalse h =>
    push_neg at h
    rw [List.getD_eq_getElem?_getD]
    have hlen : (l ++ List.replicate (i - l.length) none).length = i := by
      rw [List.length_append, List.length_replicate]
      omega
    rw [List.getElem?_append_right (by omega)]
    rw [hlen, Nat.sub_self]
    rfl

theorem slot_setSlot_ne (l : List (Option ToolCallRequest)) (i j : Nat) (r : ToolCallRequest)
    (hij : j ≠ i) : slot (setSlot l i r) j = slot l j := by
  unfold setSlot slot
  split
  case isTrue h =>
    rw [List.getD_eq_getElem?_getD, List.getD_eq_getElem?_getD,
      List.getElem?_set_ne (Ne.symm hij)]
  case isFalse h =>
    push_neg at h
    by_cases hj : j < l.length
    · rw [List.getD_eq_getElem?_getD, List.getD_eq_getElem?_getD]
      rw [List.getElem?_append_left (by simp [List.length_append]; omega),
        List.getElem?_append_left hj]
    · push_neg at hj
      rw [List.getD_eq_getElem?_getD, List.getD_eq_getElem?_getD,
        List.getElem?_eq_none hj]
      by_cases hji : j < i
      · rw [List.getElem?_append_left (by simp [List.length_append, List.length_replicate]; omega)]
        rw [List.getElem?_append_right (by omega)]
        rw [List.getElem?_replicate]
        simp only [if_pos (by omega : j - l.length < i - l.length)]
        rfl
      · have : i < j := by omega
        rw [List.getElem?_eq_none (by simp [List.length_append, List.length_replicate]; omega)]

theorem slot_appendSlot_self (l : List (Option ToolCallRequest)) (i : Nat) (n a : String)
    (h : i < l.length) :
    slot (appendSlot l i n a) i =
      (slot l i).map (fun r => { r with name := r.name ++ n, arguments := r.arguments ++ a }) := by
  unfold appendSlot slot
  rw [List.getD_eq_getElem?_getD, List.getElem?_set_self h]
  rfl

theorem slot_appendSlot_ne (l : List (Option ToolCallRequest)) (i j : Nat) (n a : String)
    (hij : j ≠ i) : slot (appendSlot l i n a) j = slot l j := by
  unfold appendSlot slot
  rw [List.getD_eq_getElem?_getD, List.getD_eq_getElem?_getD,
    List.getElem?_set_ne (Ne.symm hij), List.getD_eq_getElem?_getD]

theorem collectStep_slot_ne (reqs : List (Option ToolCallRequest)) (d : ToolCallDelta)
    (i : Nat) (h : d.index ≠ i) : slot (collectStep reqs d) i = slot reqs i := by
  unfold collectStep
  split
  · exact slot_setSlot_ne _ _ _ _ (Ne.symm h)
  split
  · exact slot_appendSlot_ne _ _ _ _ _ (Ne.symm h)
  · rfl

/-- Once a record exists at index `i` and every remaining delta at `i` is
id-less, folding the remaining deltas appends exactly the fragments arriving
at `i`, in order, to the record's name and arguments. -/
theorem collect_appends (ds : List ToolCallDelta) :
    ∀ (reqs : List (Option ToolCallRequest)) (i : Nat) (r : ToolCallRequest),
      slot reqs i = some r →
      (∀ d ∈ ds, d.index = i → idTruthy d.id = false) →
      slot (collectToolCallRequests reqs ds) i =
        some ⟨r.id, r.name ++ namesAt ds i, r.arguments ++ argsAt ds i⟩ := by
  induction ds with
  | nil =>
    intro reqs i r hslot _
    simp only [collectToolCallRequests, List.foldl_nil, namesAt, argsAt,
      String.append_empty]
    exact hslot
  | cons d ds ih =>
    intro reqs i r hslot hall
    by_cases hdi : d.index = i
    · have hid : idTruthy d.id = false := hall d (List.mem_cons_self _ _) hdi
      have hlt : d.index < reqs.length := hdi ▸ slot_lt_of_some hslot
      have hstep : collectStep reqs d = appendSlot reqs d.index (fnName d) (fnArgs d) := by
        unfold collectStep
        rw [hid]
        simp only [Bool.false_eq_true, if_false]
        rw [if_pos]
        rw [decide_eq_true hlt, hdi, hslot]
        rfl
      have hslot' : slot (collectStep reqs d) i =
          some ⟨r.id, r.name ++ fnName d, r.arguments ++ fnArgs d⟩ := by
        rw [hstep, hdi, slot_appendSlot_self _ _ _ _ (hdi ▸ hlt), hslot]
        rfl
      have := ih (collectStep reqs d) i _ hslot'
        (fun d' hd' hd'i => hall d' (List.mem_cons_of_mem _ hd') hd'i)
      rw [collectToolCallRequests, List.foldl_cons, ← collectToolCallRequests, this]
      simp only [namesAt, argsAt, if_pos hdi, String.append_assoc]
    · have hslot' : slot (collectStep reqs d) i = some r := by
        rw [collectStep_slot_ne _ _ _ hdi]; exact hslot
      have := ih (collectStep reqs d) i r hslot'
        (fun d' hd' hd'i => hall d' (List.mem_cons_of_mem _ hd') hd'i)
      rw [collectToolCallRequests, List.foldl_cons, ← collectToolCallRequests, this]
      simp only [namesAt, argsAt, if_neg hdi]
      rfl

/-- If the first delta arriving at index `i` carries a truthy id and every
later delta at `i` is id-less, the fold starting from a state with no record
at `i` ends with a record at `i` whose name and arguments are the
concatenations of all fragments at `i`, in arrival order. -/
theorem collect_creates (ds : List ToolCallDelta) :
    ∀ (reqs : List (Option ToolCallRequest)) (i : Nat) (d₀ : ToolCallDelta)
      (rest : List ToolCallDelta),
      deltasAt ds i = d₀ :: rest →
      idTruthy d₀.id = true →
      (∀ d ∈ rest, idTruthy d.id = false) →
      slot reqs i = none →
      slot (collectToolCallRequests reqs ds) i =
        some ⟨d₀.id.getD "", namesAt ds i, argsAt ds i⟩ := by
  induction ds with
  | nil => intro reqs i d₀ rest h; simp [deltasAt] at h
  | cons d ds ih =>
    intro reqs i d₀ rest hat hid hrest hslot
    by_cases hdi : d.index = i
    · have hbeq : (d.index == i) = true := by simpa using hdi
      have hfilter : deltasAt (d :: ds) i = d :: deltasAt ds i := by
        simp [deltasAt, List.filter_cons, hbeq]
      rw [hfilter] at hat
      obtain ⟨hd, hds⟩ : d = d₀ ∧ deltasAt ds i = rest := by
        constructor
        · exact (List.cons.injEq _ _ _ _ ▸ hat).1
        · exact (List.cons.injEq _ _ _ _ ▸ hat).2
      subst hd
      have hstep : collectStep reqs d = setSlot reqs d.index ⟨d.id.getD "", fnName d, fnArgs d⟩ := by
        unfold collectStep
        rw [hid]
        simp
      have hslot' : slot (collectStep reqs d) i =
          some ⟨d.id.getD "", fnName d, fnArgs d⟩ := by
        rw [hstep, ← hdi]
        exact slot_setSlot_self _ _ _
      have hall : ∀ d' ∈ ds, d'.index = i → idTruthy d'.id = false := by
        intro d' hd' hd'i
        have hmem : d' ∈ deltasAt ds i := by
          simp only [deltasAt, List.mem_filter]
          exact ⟨hd', by simpa using hd'i⟩
        rw [hds] at hmem
        exact hrest d' hmem
      have := collect_appends ds (collectStep reqs d) i _ hslot' hall
      rw [collectToolCallRequests, List.foldl_cons, ← collectToolCallRequests, this]
      simp only [namesAt, argsAt, if_pos hdi]
    · have hbeq : (d.index == i) = false := by simpa using hdi
      have hfilter : deltasAt (d :: ds) i = deltasAt ds i := by
        simp [deltasAt, List.filter_cons, hbeq]
      rw [hfilter] at hat
      have hslot' : slot (collectStep reqs d) i = none := by
        rw [collectStep_slot_ne _ _ _ hdi]; exact hslot
      have := ih (collectStep reqs d) i d₀ rest hat hid hrest hslot'
      rw [collectToolCallRequests, List.foldl_cons, ← collectToolCallRequests, this]
      simp only [namesAt, argsAt, if_neg hdi]
      rfl

/-- C1: for every delta sequence of one model turn in which each tool-call
index first appears in a delta carrying a non-empty (truthy) id and every
later delta at that index carries no truthy id, the aggregated record at that
index has name equal to the concatenation, in arrival order, of all name
fragments seen at that index, and arguments equal to the concatenation, in
arrival order, of all argument fragments seen at that index. -/
theorem collect_concatenates_fragments
    (ds : List ToolCallDelta)
    (hwf : ∀ i d₀ rest, deltasAt ds i = d₀ :: rest →
      idTruthy d₀.id = true ∧ ∀ d ∈ rest, idTruthy d.id = false)
    (i : Nat) (hocc : ∃ d ∈ ds, d.index = i) :
    ∃ r, slot (collectToolCallRequests [] ds) i = some r ∧
      r.name = namesAt ds i ∧ r.arguments = argsAt ds i := by
  obtain ⟨d, hd, hdi⟩ := hocc
  have hmem : d ∈ deltasAt ds i := by
    simp only [deltasAt, List.mem_filter]
    exact ⟨hd, by simpa using hdi⟩
  obtain ⟨d₀, rest, hat⟩ : ∃ d₀ rest, deltasAt ds i = d₀ :: rest := by
    cases h : deltasAt ds i with
    | nil => rw [h] at hmem; cases hmem
    | cons a b => exact ⟨a, b, rfl⟩
  obtain ⟨hid, hrest⟩ := hwf i d₀ rest hat
  exact ⟨_, collect_creates ds [] i d₀ rest hat hid hrest (slot_nil i), rfl, rfl⟩

/-- Witness for C1: two deltas at index 0, the first carrying the id and the
fragments `loo`/`ab`, the second id-less with fragments `kup`/`cd`; the
aggregated record concatenates both. -/
theorem collect_concatenates_fragments_witness :
    ∃ r, slot (collectToolCallRequests []
        [⟨0, some "call1", some ⟨some "loo", some "ab"⟩⟩,
         ⟨0, none, some ⟨some "kup", some "cd"⟩⟩]) 0 = some r ∧
      r.name = namesAt
        [⟨0, some "call1", some ⟨some "loo", some "ab"⟩⟩,
         ⟨0, none, some ⟨some "kup", some "cd"⟩⟩] 0 ∧
      r.arguments = argsAt
        [⟨0, some "call1", some ⟨some "loo", some "ab"⟩⟩,
         ⟨0, none, some ⟨some "kup", some "cd"⟩⟩] 0 := by
  apply collect_concatenates_fragments
  · intro i d₀ rest hat
    by_cases hi : i = 0
    · subst hi
      have hcomp : deltasAt
          [⟨0, some "call1", some ⟨some "loo", some "ab"⟩⟩,
           ⟨0, none, some ⟨some "kup", some "cd"⟩⟩] 0 =
          [⟨0, some "call1", some ⟨some "loo", some "ab"⟩⟩,
           ⟨0, none, some ⟨some "kup", some "cd"⟩⟩] := rfl
      rw [hcomp] at hat
      injection hat with h1 h2
      subst h1
      subst h2
      refine ⟨rfl, ?_⟩
      intro d hd
      simp only [List.mem_singleton] at hd
      subst hd
      rfl
    · have hbeq : ((0 : Nat) == i) = false := by
        simp only [beq_eq_false_iff_ne, ne_eq]
        omega
      have hcomp : deltasAt
          [⟨0, some "call1", some ⟨some "loo", some "ab"⟩⟩,
           ⟨0, none, some ⟨some "kup", some "cd"⟩⟩] i = [] := by
        simp [deltasAt, List.filter_cons, hbeq]
      rw [hcomp] at hat
      cases hat
  · exact ⟨⟨0, some "call1", some ⟨some "loo", some "ab"⟩⟩, List.mem_cons_self _ _, rfl⟩

/-- C7: an id-less tool-call delta arriving when no record exists at its index
(the slot is a hole or out of range) is discarded: the aggregation of the whole
sequence equals the aggregation with that delta removed.  (The model of
`collectToolCallRequests` is a total function, so no input raises.) -/
theorem idless_delta_discarded
    (pre post : List ToolCallDelta) (d : ToolCallDelta)
    (hid : idTruthy d.id = false)
    (hslot : slot (collectToolCallRequests [] pre) d.index = none) :
    collectToolCallRequests [] (pre ++ d :: post) =
      collectToolCallRequests [] (pre ++ post) := by
  have hnoop : ∀ reqs, slot reqs d.index = none → collectStep reqs d = reqs := by
    intro reqs h
    unfold collectStep
    rw [hid, h]
    simp
  unfold collectToolCallRequests at hslot ⊢
  rw [List.foldl_append, List.foldl_append, List.foldl_cons, hnoop _ hslot]

/-- Witness for C7: a single id-less delta at index 0 with an empty state is
dropped, leaving the aggregation of the empty sequence. -/
theorem idless_delta_discarded_witness :
    collectToolCallRequests [] ([] ++ ⟨0, none, some ⟨some "x", none⟩⟩ :: []) =
      collectToolCallRequests [] ([] ++ []) :=
  idless_delta_discarded [] [] ⟨0, none, some ⟨some "x", none⟩⟩ rfl rfl

/-- Dispatching a hole-free record array yields exactly the concatenation of
each record's events, tool-call references and tool messages, and sets
`hasMoreIterations` exactly when the array is nonempty. -/
theorem dispatch_spec (toolMap : String → Option (String → String))
    (records : List ToolCallRequest) :
    dispatch toolMap (records.map some) =
      Except.ok ⟨records.flatMap (fun r => (dispatchOne toolMap r).1),
                 records.flatMap (fun r => (dispatchOne toolMap r).2.1),
                 records.flatMap (fun r => (dispatchOne toolMap r).2.2),
                 !records.isEmpty⟩ := by
  induction records with
  | nil => rfl
  | cons r rs ih =>
    simp only [List.map_cons, dispatch, ih, List.flatMap_cons, List.isEmpty_cons]
    rfl

/-- A record array with no holes is the `some`-image of its completed
records. -/
theorem allSome_eq_map (reqs : List (Option ToolCallRequest))
    (h : ∀ o ∈ reqs, o.isSome = true) :
    reqs = (completedRecords reqs).map some := by
  induction reqs with
  | nil => rfl
  | cons o rest ih =>
    cases o with
    | none => exact absurd (h none (List.mem_cons_self _ _)) (by simp)
    | some r =>
      simp only [completedRecords, List.filterMap_cons, id, List.map_cons]
      rw [List.cons.injEq]
      exact ⟨rfl, ih (fun o ho => h o (List.mem_cons_of_mem _ ho))⟩

/-- A hole within the bounds of the record array makes the dispatch loop
throw. -/
theorem dispatch_error_of_hole (toolMap : String → Option (String → String)) :
    ∀ (reqs : List (Option ToolCallRequest)) (i : Nat),
      i < reqs.length → slot reqs i = none →
      ∃ e, dispatch toolMap reqs = Except.error e := by
  intro reqs
  induction reqs with
  | nil => intro i h; exact absurd h (by simp)
  | cons o rest ih =>
    intro i hlen hslot
    cases o with
    | none => exact ⟨_, rfl⟩
    | some r =>
      cases i with
      | zero => simp [slot, List.getD_eq_getElem?_getD] at hslot
      | succ i =>
        have htail : slot rest i = none := by
          simpa [slot, List.getD_eq_getElem?_getD] using hslot
        obtain ⟨e, he⟩ := ih i (by simpa using hlen) htail
        exact ⟨e, by simp only [dispatch, he]⟩

theorem setSlot_length (l : List (Option ToolCallRequest)) (i : Nat) (r : ToolCallRequest) :
    (setSlot l i r).length = if i < l.length then l.length else i + 1 := by
  unfold setSlot
  split
  case isTrue h => rw [List.length_set]
  case isFalse h =>
    push_neg at h
    simp only [List.length_append, List.length_replicate, List.length_cons, List.length_nil]
    omega

/-- The record array built by `collectToolCallRequests` is either empty or
ends with a present record (holes arise only as padding below an assigned
index).  This rules out a nonempty all-hole array. -/
def TrailingSome (l : List (Option ToolCallRequest)) : Prop :=
  l = [] ∨ (slot l (l.length - 1)).isSome = true

theorem trailingSome_collectStep (reqs : List (Option ToolCallRequest)) (d : ToolCallDelta)
    (h : TrailingSome reqs) : TrailingSome (collectStep reqs d) := by
  unfold collectStep
  split
  · -- id-bearing delta: the slot at d.index becomes a record
    right
    rw [setSlot_length]
    by_cases hlt : d.index < reqs.length
    · rw [if_pos hlt]
      by_cases hend : reqs.length - 1 = d.index
      · rw [hend, slot_setSlot_self]
        rfl
      · rw [slot_setSlot_ne _ _ _ _ hend]
        rcases h with rfl | hs
        · exact absurd hlt (by simp)
        · exact hs
    · rw [if_neg hlt, Nat.add_sub_cancel, slot_setSlot_self]
      rfl
  split
  case isTrue hcond =>
    -- fragment append onto an existing record
    right
    have hlt : d.index < reqs.length := by
      have := (Bool.and_eq_true _ _).mp hcond
      exact of_decide_eq_true this.1
    have hsome : (slot reqs d.index).isSome = true := by
      have := (Bool.and_eq_true _ _).mp hcond
      exact this.2
    unfold appendSlot
    show ((reqs.set d.index _).getD (((reqs.set d.index _).length - 1)) none).isSome = true
    rw [List.length_set]
    by_cases hend : reqs.length - 1 = d.index
    · rw [hend, List.getD_eq_getElem?_getD, List.getElem?_set_self hlt]
      cases hx : slot reqs d.index with
      | none => rw [hx] at hsome; cases hsome
      | some r => rfl
    · rw [List.getD_eq_getElem?_getD, List.getElem?_set_ne (fun hh => hend hh.symm),
        ← List.getD_eq_getElem?_getD]
      rcases h with rfl | hs
      · exact absurd hlt (by simp)
      · exact hs
  case isFalse hcond => exact h

theorem trailingSome_collect (ds : List ToolCallDelta) :
    ∀ reqs, TrailingSome reqs → TrailingSome (collectToolCallRequests reqs ds) := by
  induction ds with
  | nil => intro reqs h; exact h
  | cons d ds ih =>
    intro reqs h
    rw [collectToolCallRequests, List.foldl_cons, ← collectToolCallRequests]
    exact ih _ (trailingSome_collectStep reqs d h)

theorem completed_nil_iff (reqs : List (Option ToolCallRequest))
    (h : TrailingSome reqs) : completedRecords reqs = [] ↔ reqs = [] := by
  constructor
  · intro hc
    rcases h with rfl | hs
    · rfl
    · by_contra hne
      have hlen : 0 < reqs.length := List.length_pos.mpr hne
      have hall := List.filterMap_eq_nil_iff.mp hc
      have hin : reqs.length - 1 < reqs.length := by omega
      have hmem : reqs[reqs.length - 1] ∈ reqs := List.getElem_mem hin
      have : reqs[reqs.length - 1] = none := by
        have := hall _ hmem
        cases hx : reqs[reqs.length - 1] with
        | none => rfl
        | some r => rw [hx] at this; cases this
      rw [slot, List.getD_eq_getElem?_getD, List.getElem?_eq_getElem hin, this] at hs
      cases hs
  · rintro rfl
    rfl

theorem dispatch_ok_false_iff (toolMap : String → Option (String → String))
    (l : List (Option ToolCallRequest)) (htrail : TrailingSome l) :
    (∃ out, dispatch toolMap l = Except.ok out ∧ out.hasMoreIterations = false) ↔
      completedRecords l = [] := by
  constructor
  · rintro ⟨out, hok, hfalse⟩
    rw [completed_nil_iff l htrail]
    cases l with
    | nil => rfl
    | cons o rest =>
      exfalso
      cases o with
      | none => simp [dispatch] at hok
      | some r =>
        cases hrest : dispatch toolMap rest with
        | ok out' =>
          simp only [dispatch, hrest] at hok
          rw [← (Except.ok.injEq _ _).mp hok] at hfalse
          cases hfalse
        | error e => simp [dispatch, hrest] at hok
  · intro hc
    have : l = [] := (completed_nil_iff l htrail).mp hc
    subst this
    exact ⟨⟨[], [], [], false⟩, rfl, rfl⟩

theorem dispatch_ok_true_of_nonempty (toolMap : String → Option (String → String))
    (l : List (Option ToolCallRequest)) (hall : ∀ o ∈ l, o.isSome = true)
    (hne : completedRecords l ≠ []) :
    ∃ out, dispatch toolMap l = Except.ok out ∧ out.hasMoreIterations = true := by
  have hre := allSome_eq_map l hall
  refine ⟨_, by rw [hre]; exact dispatch_spec toolMap (completedRecords l), ?_⟩
  have hemp : (completedRecords l).isEmpty = false := by
    cases hq : (completedRecords l).isEmpty
    · rfl
    · exact absurd (List.isEmpty_iff.mp hq) hne
  show (!(completedRecords l).isEmpty) = true
  rw [hemp]
  rfl

/-- Counterexample to C2 as stated: the single delta sequence whose only
(id-bearing) delta uses stream index 1 produces one completed record, yet the
engine does not start another iteration — the dispatch loop hits the hole at
index 0 and the generator aborts with a thrown `TypeError` instead. -/
theorem turn_with_record_but_no_new_iteration :
    (completedRecords (collectToolCallRequests []
        [⟨1, some "call1", some ⟨some "f", some "x"⟩⟩])).length = 1 ∧
    turnOutcome (fun _ => none) [⟨1, some "call1", some ⟨some "f", some "x"⟩⟩] =
      Except.error "TypeError: cannot read properties of undefined (reading name)" :=
  ⟨rfl, rfl⟩

/-- C2 (amended): the generator finishes normally after a turn (reaches
`DONE`, i.e. the dispatch loop returns with `hasMoreIterations = false`) if
and only if the turn's delta sequence produced zero completed tool-call
records; and when at least one record was produced AND the record array has
no holes (every stream index below an assigned one was also assigned),
another iteration is started.  With a hole, the generator instead aborts (see
the index-gap theorem). -/
theorem turn_termination (toolMap : String → Option (String → String))
    (ds : List ToolCallDelta) :
    ((∃ out, turnOutcome toolMap ds = Except.ok out ∧ out.hasMoreIterations = false) ↔
      completedRecords (collectToolCallRequests [] ds) = []) ∧
    ((∀ o ∈ collectToolCallRequests [] ds, o.isSome = true) →
      completedRecords (collectToolCallRequests [] ds) ≠ [] →
      ∃ out, turnOutcome toolMap ds = Except.ok out ∧ out.hasMoreIterations = true) := by
  have htrail : TrailingSome (collectToolCallRequests [] ds) :=
    trailingSome_collect ds [] (Or.inl rfl)
  exact ⟨dispatch_ok_false_iff toolMap _ htrail,
    fun hall hne => dispatch_ok_true_of_nonempty toolMap _ hall hne⟩

/-- Witness for the amended C2: a turn with one complete record at index 0
(hole-free) starts another iteration, and a turn with no deltas reaches
`DONE`. -/
theorem turn_termination_witness :
    (∃ out, turnOutcome (fun _ => none)
        [⟨0, some "call1", some ⟨some "f", some "x"⟩⟩] = Except.ok out ∧
      out.hasMoreIterations = true) ∧
    (∃ out, turnOutcome (fun _ => none) ([] : List ToolCallDelta) = Except.ok out ∧
      out.hasMoreIterations = false) := by
  constructor
  · apply (turn_termination (fun _ => none)
      [⟨0, some "call1", some ⟨some "f", some "x"⟩⟩]).2
    · intro o ho
      simp only [show collectToolCallRequests []
          [⟨0, some "call1", some ⟨some "f", some "x"⟩⟩] =
          [some ⟨"call1", "f", "x"⟩] from rfl, List.mem_singleton] at ho
      subst ho
      rfl
    · intro hc
      cases hc
  · exact (turn_termination (fun _ => none) []).1.mpr rfl

/-- C9: if a turn's deltas leave a gap in stream indices — some index `n`
holds a completed record while a lower index `m` holds no record — the
dispatch loop dereferences the hole and the generator aborts with a thrown
error rather than skipping it. -/
theorem index_gap_aborts (toolMap : String → Option (String → String))
    (ds : List ToolCallDelta) (n m : Nat) (r : ToolCallRequest)
    (hrec : slot (collectToolCallRequests [] ds) n = some r)
    (hmn : m < n)
    (hhole : slot (collectToolCallRequests [] ds) m = none) :
    ∃ e, dispatch toolMap (collectToolCallRequests [] ds) = Except.error e := by
  have hn := slot_lt_of_some hrec
  exact dispatch_error_of_hole toolMap _ m (by omega) hhole

/-- Witness for C9: the only id-bearing delta uses index 1, so index 0 is a
hole and the dispatch of the turn's records errors. -/
theorem index_gap_aborts_witness :
    ∃ e, dispatch (fun _ => none)
      (collectToolCallRequests [] [⟨1, some "call9", some ⟨some "g", some "y"⟩⟩]) =
        Except.error e :=
  index_gap_aborts (fun _ => none) [⟨1, some "call9", some ⟨some "g", some "y"⟩⟩]
    1 0 ⟨"call9", "g", "y"⟩ rfl (by omega) rfl

/-- C6: a completed record whose name matches no registered tool still gets a
tool-call-request event, but no tool-call-response event carries its id, no
tool-role message carries its id, no tool-call reference with its id is added
to the assistant message, and the dispatch loop does not abort (the record
array is hole-free).  The id-sharing hypothesis rules out an unrelated record
that happens to reuse the same correlation id. -/
theorem unknown_tool_request_only
    (toolMap : String → Option (String → String))
    (reqs : List (Option ToolCallRequest)) (rec : ToolCallRequest)
    (hall : ∀ o ∈ reqs, o.isSome = true)
    (hmem : some rec ∈ reqs)
    (hunknown : toolMap rec.name = none)
    (hshared : ∀ r' : ToolCallRequest, some r' ∈ reqs → r'.id = rec.id →
      toolMap r'.name = none) :
    ∃ out, dispatch toolMap reqs = Except.ok out ∧
      EngineEvent.request rec.id rec.name rec.arguments ∈ out.events ∧
      (∀ res, EngineEvent.response rec.id res ∉ out.events) ∧
      (∀ tc ∈ out.toolCalls, tc.id ≠ rec.id) ∧
      (∀ m ∈ out.toolMessages, m.tool_call_id ≠ rec.id) := by
  have hre := allSome_eq_map reqs hall
  have hrecmem : rec ∈ completedRecords reqs := by
    rw [hre] at hmem
    obtain ⟨a, ha, haeq⟩ := List.mem_map.mp hmem
    cases haeq
    exact ha
  have hmemof : ∀ r' : ToolCallRequest, r' ∈ completedRecords reqs → some r' ∈ reqs := by
    intro r' hr'
    rw [hre]
    exact List.mem_map.mpr ⟨r', hr', rfl⟩
  refine ⟨_, by rw [hre]; exact dispatch_spec toolMap (completedRecords reqs),
    ?_, ?_, ?_, ?_⟩
  · show EngineEvent.request rec.id rec.name rec.arguments ∈
      (completedRecords reqs).flatMap (fun r => (dispatchOne toolMap r).1)
    refine List.mem_flatMap.mpr ⟨rec, hrecmem, ?_⟩
    simp [dispatchOne, hunknown]
  · intro res hresp
    obtain ⟨r', hr', hin⟩ := List.mem_flatMap.mp hresp
    cases htm : toolMap r'.name with
    | none =>
      simp only [dispatchOne, htm, List.mem_singleton] at hin
      cases hin
    | some c =>
      simp only [dispatchOne, htm, List.mem_cons, List.mem_singleton] at hin
      rcases hin with hin | hin | hin
      · cases hin
      · have hid : r'.id = rec.id := by
          injection hin with h1 _
          exact h1.symm
        rw [hshared r' (hmemof r' hr') hid] at htm
        cases htm
      · cases hin
  · intro tc htc hid
    obtain ⟨r', hr', hin⟩ := List.mem_flatMap.mp htc
    cases htm : toolMap r'.name with
    | none => simp only [dispatchOne, htm, List.not_mem_nil] at hin
    | some c =>
      simp only [dispatchOne, htm, List.mem_singleton] at hin
      subst hin
      rw [hshared r' (hmemof r' hr') hid] at htm
      cases htm
  · intro m hm hid
    obtain ⟨r', hr', hin⟩ := List.mem_flatMap.mp hm
    cases htm : toolMap r'.name with
    | none => simp only [dispatchOne, htm, List.not_mem_nil] at hin
    | some c =>
      simp only [dispatchOne, htm, List.mem_singleton] at hin
      subst hin
      rw [hshared r' (hmemof r' hr') hid] at htm
      cases htm

/-- Witness for C6: a single completed record naming an unregistered tool:
the dispatch succeeds, emits its request event and nothing else for its id. -/
theorem unknown_tool_request_only_witness :
    ∃ out, dispatch (fun _ => none) [some ⟨"c1", "mystery", "args"⟩] = Except.ok out ∧
      EngineEvent.request "c1" "mystery" "args" ∈ out.events ∧
      (∀ res, EngineEvent.response "c1" res ∉ out.events) ∧
      (∀ tc ∈ out.toolCalls, tc.id ≠ "c1") ∧
      (∀ m ∈ out.toolMessages, m.tool_call_id ≠ "c1") := by
  apply unknown_tool_request_only (fun _ => none) [some ⟨"c1", "mystery", "args"⟩]
    ⟨"c1", "mystery", "args"⟩
  · intro o ho
    simp only [List.mem_singleton] at ho
    subst ho
    rfl
  · exact List.mem_singleton.mpr rfl
  · rfl
  · intro r' hr' _
    rfl

/-- C5: `makeTool(...).call` never raises past the call boundary.  Each
failure stage — JSON decode failure, schema validation failure, handler
error — is caught and becomes the serialized error payload; only full success
returns the serialized handler result.  (`makeToolCall` is a total function
into `String`: there is no outcome in which it throws.) -/
theorem tool_call_never_throws
    (decode : String → Except String Json) (F : Formats) (sch : Schema)
    (handler : Json → Except String String) (raw : String) :
    (∀ m, decode raw = Except.error m →
      makeToolCall decode F sch handler raw = errorPayload (ToolError.decodeErr m)) ∧
    (∀ j pe, decode raw = Except.ok j → parse F sch j = Except.error pe →
      makeToolCall decode F sch handler raw = errorPayload (ToolError.parseErr pe)) ∧
    (∀ j v m, decode raw = Except.ok j → parse F sch j = Except.ok v →
      handler v = Except.error m →
      makeToolCall decode F sch handler raw = errorPayload (ToolError.handlerErr m)) ∧
    (∀ j v r, decode raw = Except.ok j → parse F sch j = Except.ok v →
      handler v = Except.ok r →
      makeToolCall decode F sch handler raw = stringifyJson (Json.str r)) := by
  refine ⟨?_, ?_, ?_, ?_⟩
  · intro m hm
    simp only [makeToolCall, toolCallE, hm]
  · intro j pe h1 h2
    simp only [makeToolCall, toolCallE, h1, h2]
  · intro j v m h1 h2 h3
    simp only [makeToolCall, toolCallE, h1, h2, h3]
  · intro j v r h1 h2 h3
    simp only [makeToolCall, toolCallE, h1, h2, h3]

/-- Witness for C5: a decoder failure (malformed JSON) is returned as the
serialized error payload, not thrown. -/
theorem tool_call_never_throws_witness :
    makeToolCall (fun _ => Except.error "Unexpected token") F0 Schema.boolean
      (fun _ => Except.ok "") "not json" =
      errorPayload (ToolError.decodeErr "Unexpected token") :=
  (tool_call_never_throws (fun _ => Except.error "Unexpected token") F0 Schema.boolean
    (fun _ => Except.ok "") "not json").1 "Unexpected token" rfl

/-- Counterexample to C8 as stated: with `maxLength = 0` declared, the
truthiness guard `schema.maxLength && ...` skips the length check, so a
string of length `maxLength + 1 = 1` validates successfully instead of
failing with a length violation. -/
theorem maxLength_zero_not_enforced :
    parseAny F0 (Schema.string none (some 0) none none) "" (Json.str "a") =
      Except.ok (Json.str "a") := rfl

/-- C8 (amended): for a string schema declaring a nonzero `maxLength`, no
enum, no format, and a `minLength` (if any) at most `maxLength`, a string of
length exactly `maxLength` validates, and a string of length `maxLength + 1`
fails with the length-violation `ParseError` carrying the field's path. -/
theorem maxLength_boundary (F : Formats) (minL : Option Nat) (L : Nat) (path : String)
    (s t : String) (hL : 0 < L) (hmin : ∀ m, minL = some m → m ≤ L)
    (hs : s.length = L) (ht : t.length = L + 1) :
    parseAny F (Schema.string minL (some L) none none) path (Json.str s) =
      Except.ok (Json.str s) ∧
    parseAny F (Schema.string minL (some L) none none) path (Json.str t) =
      Except.error ⟨"string is too long: " ++ toString (L + 1) ++ " > " ++ toString L,
        path, Json.str t⟩ := by
  have hmaxs : maxBoundViolation (some L) s.length = false := by
    unfold maxBoundViolation
    rw [hs]
    simp
  have hmins : minBoundViolation minL s.length = false := by
    unfold minBoundViolation
    cases minL with
    | none => rfl
    | some m =>
      have hm := hmin m rfl
      rw [hs]
      simp only [Bool.and_eq_false_iff, decide_eq_false_iff_not]
      right
      omega
  have hmaxt : maxBoundViolation (some L) t.length = true := by
    unfold maxBoundViolation natTruthy
    rw [ht]
    simp only [Bool.and_eq_true, bne_iff_ne, ne_eq, decide_eq_true_eq]
    omega
  constructor
  · show parseString F minL (some L) none none path (Json.str s) = _
    simp only [parseString]
    rw [hmaxs, hmins]
    simp [strEnumViolation]
  · show parseString F minL (some L) none none path (Json.str t) = _
    simp only [parseString]
    rw [hmaxt, ht]
    simp

/-- Witness for the amended C8: `maxLength = 2`, a two-character string
passes and a three-character string fails with the length violation at the
given path. -/
theorem maxLength_boundary_witness :
    parseAny F0 (Schema.string none (some 2) none none) ".f" (Json.str "ab") =
      Except.ok (Json.str "ab") ∧
    parseAny F0 (Schema.string none (some 2) none none) ".f" (Json.str "abc") =
      Except.error ⟨"string is too long: " ++ toString (2 + 1) ++ " > " ++ toString 2,
        ".f", Json.str "abc"⟩ :=
  maxLength_boundary F0 none 2 ".f" "ab" "abc" (by decide)
    (fun m hm => by cases hm) rfl rfl

theorem parseElems_bools (f : String → Json → Except ParseError Json)
    (hf : ∀ p (b : Bool), f p (Json.bool b) = Except.ok (Json.bool b))
    (path : String) : ∀ (xs : List Bool) (i : Nat),
    parseElems f path (xs.map Json.bool) i = Except.ok (xs.map Json.bool) := by
  intro xs
  induction xs with
  | nil => intro i; rfl
  | cons b bs ih =>
    intro i
    show parseElems _ _ (Json.bool b :: bs.map Json.bool) i = _
    unfold parseElems
    rw [hf (path ++ "[" ++ toString i ++ "]") b]
    rw [ih (i + 1)]
    rfl

/-- C10: a bound declared as `0` is never enforced, because every bound is
tested for JavaScript truthiness before the comparison (`schema.minimum &&
...` etc.), and `0` is falsy.  Stated both for the raw guards and end to end:
a negative number passes a `minimum: 0` check, a positive number passes a
`maximum: 0` check (for `number` and `integer` schemas), every string passes
`minLength: 0`/`maxLength: 0`, and every boolean array passes
`minItems: 0`/`maxItems: 0`. -/
theorem zero_bounds_not_enforced (path : String) :
    (∀ q : Rat, minimumViolation (some 0) q = false) ∧
    (∀ q : Rat, maximumViolation (some 0) q = false) ∧
    (∀ len : Nat, minBoundViolation (some 0) len = false) ∧
    (∀ len : Nat, maxBoundViolation (some 0) len = false) ∧
    (∀ q : Rat, q < 0 →
      parseNumber (some 0) none none path (Json.num q) = Except.ok (Json.num q)) ∧
    (∀ q : Rat, 0 < q →
      parseNumber none (some 0) none path (Json.num q) = Except.ok (Json.num q)) ∧
    (∀ n : Int, n < 0 →
      parseInteger (some 0) none none path (Json.num (n : Rat)) =
        Except.ok (Json.num (n : Rat))) ∧
    (∀ n : Int, 0 < n →
      parseInteger none (some 0) none path (Json.num (n : Rat)) =
        Except.ok (Json.num (n : Rat))) ∧
    (∀ (F : Formats) (s : String),
      parseString F (some 0) none none none path (Json.str s) = Except.ok (Json.str s)) ∧
    (∀ (F : Formats) (s : String),
      parseString F none (some 0) none none path (Json.str s) = Except.ok (Json.str s)) ∧
    (∀ xs : List Bool,
      parseAny F0 (Schema.array Schema.boolean (some 0) none) path
        (Json.arr (xs.map Json.bool)) = Except.ok (Json.arr (xs.map Json.bool))) ∧
    (∀ xs : List Bool,
      parseAny F0 (Schema.array Schema.boolean none (some 0)) path
        (Json.arr (xs.map Json.bool)) = Except.ok (Json.arr (xs.map Json.bool))) := by
  have hmin0 : ∀ q : Rat, minimumViolation (some 0) q = false := by
    intro q
    simp [minimumViolation, ratTruthy]
  have hmax0 : ∀ q : Rat, maximumViolation (some 0) q = false := by
    intro q
    simp [maximumViolation, ratTruthy]
  have hminb0 : ∀ len : Nat, minBoundViolation (some 0) len = false := by
    intro len
    simp [minBoundViolation, natTruthy]
  have hmaxb0 : ∀ len : Nat, maxBoundViolation (some 0) len = false := by
    intro len
    simp [maxBoundViolation, natTruthy]
  refine ⟨hmin0, hmax0, hminb0, hmaxb0, ?_, ?_, ?_, ?_, ?_, ?_, ?_, ?_⟩
  · intro q _
    simp [parseNumber, numEnumViolation, hmin0 q, maximumViolation]
  · intro q _
    simp [parseNumber, numEnumViolation, minimumViolation, hmax0 q]
  · intro n _
    simp [parseInteger, jsIsInteger, Rat.den_intCast, numEnumViolation, hmin0,
      maximumViolation]
  · intro n _
    simp [parseInteger, jsIsInteger, Rat.den_intCast, numEnumViolation,
      minimumViolation, hmax0]
  · intro F s
    simp [parseString, maxBoundViolation, hminb0 s.length, strEnumViolation]
  · intro F s
    simp [parseString, hmaxb0 s.length, minBoundViolation, strEnumViolation]
  · intro xs
    show parseAny F0 (Schema.array Schema.boolean (some 0) none) path
        (Json.arr (xs.map Json.bool)) = _
    simp only [parseAny, hminb0 (xs.map Json.bool).length,
      show maxBoundViolation none (xs.map Json.bool).length = false from rfl,
      Bool.false_eq_true, if_false]
    rw [parseElems_bools (fun x y => parseBoolean x y) (fun p b => rfl) path xs 0]
  · intro xs
    show parseAny F0 (Schema.array Schema.boolean none (some 0)) path
        (Json.arr (xs.map Json.bool)) = _
    simp only [parseAny,
      show minBoundViolation none (xs.map Json.bool).length = false from rfl,
      hmaxb0 (xs.map Json.bool).length,
      Bool.false_eq_true, if_false]
    rw [parseElems_bools (fun x y => parseBoolean x y) (fun p b => rfl) path xs 0]

/-- Witness for C10: `-5` passes a `minimum: 0` number schema, `-3` passes a
`minimum: 0` integer schema, a three-character string passes `maxLength: 0`,
and a nonempty array passes `maxItems: 0`. -/
theorem zero_bounds_not_enforced_witness :
    parseNumber (some 0) none none "" (Json.num (-5)) = Except.ok (Json.num (-5)) ∧
    parseInteger (some 0) none none "" (Json.num ((-3 : Int) : Rat)) =
      Except.ok (Json.num ((-3 : Int) : Rat)) ∧
    parseString F0 none (some 0) none none "" (Json.str "abc") =
      Except.ok (Json.str "abc") ∧
    parseAny F0 (Schema.array Schema.boolean none (some 0)) ""
      (Json.arr ([true].map Json.bool)) = Except.ok (Json.arr ([true].map Json.bool)) := by
  obtain ⟨h1, h2, h3, h4, h5, h6, h7, h8, h9, h10, h11, h12⟩ := zero_bounds_not_enforced ""
  exact ⟨h5 (-5) (by decide), h7 (-3) (by decide), h10 F0 "abc", h12 [true]⟩

/-- The declared property keys of an object schema, in declaration order. -/
def keysOf : Props → List String
  | Props.nil => []
  | Props.cons key _ _ rest => key :: keysOf rest

/-- The declared property entry (schema and optional default) at a key. -/
def propAt : Props → String → Option (Schema × Option Json)
  | Props.nil, _ => none
  | Props.cons key ps dflt rest, k => if key = k then some (ps, dflt) else propAt rest k

/-- First-match association lookup on an object's field list (the object form
of `jsGet`). -/
def lookupKV (kvs : List (String × Json)) (k : String) : Option Json :=
  (kvs.find? (fun kv => kv.1 == k)).map (fun kv => kv.2)

theorem jsGet_obj (kvs : List (String × Json)) (k : String) :
    jsGet (Json.obj kvs) k = lookupKV kvs k := rfl

theorem find_map_replace (kvs : List (String × Json)) (k : String) (v : Json)
    (h : kvs.any (fun kv => kv.1 == k) = true) :
    lookupKV (kvs.map (fun kv => if kv.1 == k then (k, v) else kv)) k = some v := by
  induction kvs with
  | nil => cases h
  | cons kv rest ih =>
    by_cases hk : (kv.1 == k) = true
    · rw [List.map_cons, if_pos hk]
      unfold lookupKV
      rw [List.find?_cons]
      simp
    · have hk0 : (kv.1 == k) = false := by simpa using hk
      rw [List.any_cons, hk0, Bool.false_or] at h
      rw [List.map_cons, if_neg hk]
      unfold lookupKV
      rw [List.find?_cons]
      simp only [hk0]
      exact ih h

theorem find_map_replace_ne (kvs : List (String × Json)) (k : String) (v : Json)
    (k' : String) (hne : k' ≠ k) :
    lookupKV (kvs.map (fun kv => if kv.1 == k then (k, v) else kv)) k' =
      lookupKV kvs k' := by
  induction kvs with
  | nil => rfl
  | cons kv rest ih =>
    unfold lookupKV
    rw [List.map_cons, List.find?_cons, List.find?_cons]
    by_cases hk : (kv.1 == k) = true
    · have hk1 : kv.1 = k := by simpa using hk
      have hkne : (k == k') = false := by
        simp only [beq_eq_false_iff_ne, ne_eq]
        exact Ne.symm hne
      rw [if_pos hk]
      simp only [hk1, hkne]
      exact ih
    · rw [if_neg hk]
      by_cases hk' : (kv.1 == k') = true
      · simp only [hk']
      · have hk'0 : (kv.1 == k') = false := by simpa using hk'
        simp only [hk'0]
        exact ih

theorem append_single_ne (kvs : List (String × Json)) (k : String) (v : Json)
    (k' : String) (hne : k' ≠ k) :
    lookupKV (kvs ++ [(k, v)]) k' = lookupKV kvs k' := by
  unfold lookupKV
  rw [List.find?_append]
  cases hfind : kvs.find? (fun kv => kv.1 == k') with
  | some x => rfl
  | none =>
    show ((Option.none).or _).map _ = _
    rw [Option.none_or, List.find?_cons]
    have hkne : (k == k') = false := by
      simp only [beq_eq_false_iff_ne, ne_eq]
      exact Ne.symm hne
    simp only [hkne]
    rfl

theorem lookupKV_jsSet_self (kvs : List (String × Json)) (k : String) (v : Json) :
    lookupKV (jsSet kvs k v) k = some v := by
  unfold jsSet
  split
  case isTrue h => exact find_map_replace kvs k v h
  case isFalse h =>
    unfold lookupKV
    rw [List.find?_append]
    have hnone : kvs.find? (fun kv => kv.1 == k) = none := by
      rw [List.find?_eq_none]
      intro x hx hpx
      exact h (List.any_eq_true.mpr ⟨x, hx, hpx⟩)
    rw [hnone]
    show ((Option.none).or _).map _ = _
    rw [Option.none_or, List.find?_cons]
    simp

theorem lookupKV_jsSet_ne (kvs : List (String × Json)) (k : String) (v : Json)
    (k' : String) (hne : k' ≠ k) :
    lookupKV (jsSet kvs k v) k' = lookupKV kvs k' := by
  unfold jsSet
  split
  · exact find_map_replace_ne kvs k v k' hne
  · exact append_single_ne kvs k v k' hne

/-- Keys not declared in the (remaining) property list are untouched by the
`parseObject` fold: their lookup in the output equals their lookup in the
accumulator. -/
theorem parseProps_lookup_preserved (F : Formats) :
    (props : Props) → ∀ (req : Option (List String)) (path : String) (input : Json)
      (acc out : List (String × Json)) (k : String),
      k ∉ keysOf props →
      parseProps F props req path input acc = Except.ok out →
      lookupKV out k = lookupKV acc k
  | Props.nil => by
    intro req path input acc out k _ hrun
    simp only [parseProps] at hrun
    cases hrun
    rfl
  | Props.cons key ps dflt rest => by
    intro req path input acc out k hk hrun
    simp only [keysOf, List.mem_cons] at hk
    push_neg at hk
    obtain ⟨hk1, hk2⟩ := hk
    simp only [parseProps] at hrun
    cases hget : jsGet input key with
    | none =>
      rw [hget] at hrun
      by_cases hreq : requiredContains req key = true
      · simp only [hreq, if_true] at hrun
        cases hrun
      · have hreq0 : requiredContains req key = false := by simpa using hreq
        simp only [hreq0, Bool.false_eq_true, if_false] at hrun
        cases dflt with
        | some d =>
          rw [parseProps_lookup_preserved F rest req path input (jsSet acc key d) out k
            hk2 hrun, lookupKV_jsSet_ne _ _ _ _ hk1]
        | none =>
          exact parseProps_lookup_preserved F rest req path input acc out k hk2 hrun
    | some v =>
      simp only [hget] at hrun
      cases hpa : parseAny F ps (path ++ "." ++ key) v with
      | error e =>
        simp only [hpa] at hrun
        cases hrun
      | ok y =>
        simp only [hpa] at hrun
        rw [parseProps_lookup_preserved F rest req path input (jsSet acc key y) out k
          hk2 hrun, lookupKV_jsSet_ne _ _ _ _ hk1]

/-- If some declared key is required and absent from the input, the
`parseObject` fold throws (either at that key or at an earlier failing
property — in declaration order, whichever comes first). -/
theorem parseProps_required_absent (F : Formats) :
    (props : Props) → ∀ (req : Option (List String)) (path : String) (input : Json)
      (acc : List (String × Json)) (k : String),
      k ∈ keysOf props →
      jsGet input k = none →
      requiredContains req k = true →
      ∃ e, parseProps F props req path input acc = Except.error e
  | Props.nil => by
    intro req path input acc k hk
    simp [keysOf] at hk
  | Props.cons key ps dflt rest => by
    intro req path input acc k hk hget hreq
    simp only [keysOf, List.mem_cons] at hk
    by_cases hkey : k = key
    · subst hkey
      refine ⟨⟨"required property \"" ++ k ++ "\" is missing", path, input⟩, ?_⟩
      simp only [parseProps, hget, hreq, if_true]
    · have hkrest : k ∈ keysOf rest := hk.resolve_left hkey
      cases hget' : jsGet input key with
      | none =>
        by_cases hreq' : requiredContains req key = true
        · exact ⟨⟨"required property \"" ++ key ++ "\" is missing", path, input⟩,
            by simp only [parseProps, hget', hreq', if_true]⟩
        · have hreq'0 : requiredContains req key = false := by simpa using hreq'
          cases dflt with
          | some d =>
            obtain ⟨e, he⟩ := parseProps_required_absent F rest req path input
              (jsSet acc key d) k hkrest hget hreq
            exact ⟨e, by
              simp only [parseProps, hget', hreq'0, Bool.false_eq_true, if_false]
              exact he⟩
          | none =>
            obtain ⟨e, he⟩ := parseProps_required_absent F rest req path input
              acc k hkrest hget hreq
            exact ⟨e, by
              simp only [parseProps, hget', hreq'0, Bool.false_eq_true, if_false]
              exact he⟩
      | some v =>
        cases hpa : parseAny F ps (path ++ "." ++ key) v with
        | error e =>
          exact ⟨e, by simp only [parseProps, hget', hpa]⟩
        | ok y =>
          obtain ⟨e, he⟩ := parseProps_required_absent F rest req path input
            (jsSet acc key y) k hkrest hget hreq
          exact ⟨e, by
            simp only [parseProps, hget', hpa]
            exact he⟩

/-- If a declared key carries a default, is not required and is absent from
the input, and the `parseObject` fold succeeds, the output holds the raw
default at that key. -/
theorem parseProps_default_injected (F : Formats) :
    (props : Props) → ∀ (req : Option (List String)) (path : String) (input : Json)
      (acc out : List (String × Json)) (k : String) (ps : Schema) (d : Json),
      (keysOf props).Nodup →
      propAt props k = some (ps, some d) →
      jsGet input k = none →
      requiredContains req k = false →
      parseProps F props req path input acc = Except.ok out →
      lookupKV out k = some d
  | Props.nil => by
    intro req path input acc out k ps d _ hat
    simp [propAt] at hat
  | Props.cons key ps' dflt rest => by
    intro req path input acc out k ps d hnd hat hget hreq hrun
    simp only [keysOf, List.nodup_cons] at hnd
    obtain ⟨hnmem, hndrest⟩ := hnd
    simp only [propAt] at hat
    by_cases hkey : key = k
    · rw [if_pos hkey] at hat
      have hdflt : dflt = some d := congrArg (fun x => x.2) (Option.some.injEq _ _ ▸ hat)
      subst hkey
      simp only [parseProps, hget, hreq, Bool.false_eq_true, if_false, hdflt] at hrun
      have hpres := parseProps_lookup_preserved F rest req path input
        (jsSet acc key d) out key hnmem hrun
      rw [hpres, lookupKV_jsSet_self]
    · rw [if_neg hkey] at hat
      simp only [parseProps] at hrun
      cases hget' : jsGet input key with
      | none =>
        rw [hget'] at hrun
        by_cases hreq' : requiredContains req key = true
        · simp only [hreq', if_true] at hrun
          cases hrun
        · have hreq'0 : requiredContains req key = false := by simpa using hreq'
          simp only [hreq'0, Bool.false_eq_true, if_false] at hrun
          cases dflt with
          | some d' =>
            exact parseProps_default_injected F rest req path input
              (jsSet acc key d') out k ps d hndrest hat hget hreq hrun
          | none =>
            exact parseProps_default_injected F rest req path input
              acc out k ps d hndrest hat hget hreq hrun
      | some v =>
        simp only [hget'] at hrun
        cases hpa : parseAny F ps' (path ++ "." ++ key) v with
        | error e =>
          simp only [hpa] at hrun
          cases hrun
        | ok y =>
          simp only [hpa] at hrun
          exact parseProps_default_injected F rest req path input
            (jsSet acc key y) out k ps d hndrest hat hget hreq hrun

/-- Counterexample to C3 as stated: a property that is both required and
carries a default.  `parseObject` checks `required` BEFORE injecting
defaults, so validating an input lacking the property throws the
required-property error instead of succeeding with the default injected. -/
theorem required_with_default_still_fails :
    parse F0 (Schema.object
        (Props.cons "a" (Schema.string none none none none) (some (Json.str "d")) Props.nil)
        (some ["a"]))
      (Json.obj []) =
      Except.error ⟨"required property \"a\" is missing", "", Json.obj []⟩ := rfl

/-- C3 (amended): for an object schema, an absent declared property fails
validation whenever it is required — whether or not it carries a default
(the required check precedes default injection); the default is injected
into the output only when the property is NOT required (and has a default
and is absent). -/
theorem object_required_and_default :
    (∀ (F : Formats) (props : Props) (req : Option (List String)) (path : String)
        (input : Json) (k : String),
      isJsObject input = true →
      k ∈ keysOf props →
      jsGet input k = none →
      requiredContains req k = true →
      ∃ e, parseAny F (Schema.object props req) path input = Except.error e) ∧
    (∀ (F : Formats) (props : Props) (req : Option (List String)) (path : String)
        (input : Json) (k : String) (ps : Schema) (d : Json) (out : Json),
      (keysOf props).Nodup →
      propAt props k = some (ps, some d) →
      jsGet input k = none →
      requiredContains req k = false →
      parseAny F (Schema.object props req) path input = Except.ok out →
      jsGet out k = some d) := by
  constructor
  · intro F props req path input k hobj hk hget hreq
    obtain ⟨e, he⟩ := parseProps_required_absent F props req path input [] k hk hget hreq
    refine ⟨e, ?_⟩
    simp only [parseAny, hobj, if_true, he]
  · intro F props req path input k ps d out hnd hat hget hreq hok
    simp only [parseAny] at hok
    by_cases hobj : isJsObject input = true
    · simp only [hobj, if_true] at hok
      cases hpp : parseProps F props req path input [] with
      | error e =>
        simp only [hpp] at hok
        cases hok
      | ok kvs =>
        simp only [hpp] at hok
        cases hok
        rw [jsGet_obj]
        exact parseProps_default_injected F props req path input [] kvs k ps d
          hnd hat hget hreq hpp
    · have hobj0 : isJsObject input = false := by simpa using hobj
      simp only [hobj0, Bool.false_eq_true, if_false] at hok
      cases hok

/-- Witness for the amended C3: the required property `a` (with default) is
absent, so validation errors; for the same schema without the required
constraint, the default is injected into the output. -/
theorem object_required_and_default_witness :
    (∃ e, parseAny F0 (Schema.object
        (Props.cons "a" (Schema.string none none none none) (some (Json.str "d")) Props.nil)
        (some ["a"])) "" (Json.obj []) = Except.error e) ∧
    jsGet (Json.obj [("a", Json.str "d")]) "a" = some (Json.str "d") := by
  constructor
  · exact (object_required_and_default).1 F0
      (Props.cons "a" (Schema.string none none none none) (some (Json.str "d")) Props.nil)
      (some ["a"]) "" (Json.obj []) "a" rfl
      (by simp [keysOf]) rfl rfl
  · exact (object_required_and_default).2 F0
      (Props.cons "a" (Schema.string none none none none) (some (Json.str "d")) Props.nil)
      none "" (Json.obj []) "a" (Schema.string none none none none) (Json.str "d")
      (Json.obj [("a", Json.str "d")])
      (by simp [keysOf]) rfl rfl rfl rfl

theorem parseString_ok (F : Formats) (minL maxL : Option Nat) (fmt : Option StringFormat)
    (en : Option (List String)) (path : String) (input v : Json)
    (h : parseString F minL maxL fmt en path input = Except.ok v) : v = input := by
  cases input with
  | str s =>
    simp only [parseString] at h
    repeat' split at h
    all_goals (cases h <;> rfl)
  | num q => simp only [parseString] at h; cases h
  | bool b => simp only [parseString] at h; cases h
  | null => simp only [parseString] at h; cases h
  | arr xs => simp only [parseString] at h; cases h
  | obj kvs => simp only [parseString] at h; cases h

theorem parseNumber_ok (mi ma : Option Rat) (en : Option (List Rat))
    (path : String) (input v : Json)
    (h : parseNumber mi ma en path input = Except.ok v) : v = input := by
  cases input with
  | num q =>
    simp only [parseNumber] at h
    repeat' split at h
    all_goals (cases h <;> rfl)
  | str s => simp only [parseNumber] at h; cases h
  | bool b => simp only [parseNumber] at h; cases h
  | null => simp only [parseNumber] at h; cases h
  | arr xs => simp only [parseNumber] at h; cases h
  | obj kvs => simp only [parseNumber] at h; cases h

theorem parseInteger_ok (mi ma : Option Rat) (en : Option (List Rat))
    (path : String) (input v : Json)
    (h : parseInteger mi ma en path input = Except.ok v) : v = input := by
  cases input with
  | num q =>
    simp only [parseInteger] at h
    repeat' split at h
    all_goals (cases h <;> rfl)
  | str s => simp only [parseInteger] at h; cases h
  | bool b => simp only [parseInteger] at h; cases h
  | null => simp only [parseInteger] at h; cases h
  | arr xs => simp only [parseInteger] at h; cases h
  | obj kvs => simp only [parseInteger] at h; cases h

theorem parseBoolean_ok (path : String) (input v : Json)
    (h : parseBoolean path input = Except.ok v) : v = input := by
  cases input with
  | bool b => simp only [parseBoolean] at h; cases h; rfl
  | str s => simp only [parseBoolean] at h; cases h
  | num q => simp only [parseBoolean] at h; cases h
  | null => simp only [parseBoolean] at h; cases h
  | arr xs => simp only [parseBoolean] at h; cases h
  | obj kvs => simp only [parseBoolean] at h; cases h

theorem parseNull_ok (path : String) (input v : Json)
    (h : parseNull path input = Except.ok v) : v = input := by
  cases input with
  | null => simp only [parseNull] at h; cases h; rfl
  | str s => simp only [parseNull] at h; cases h
  | num q => simp only [parseNull] at h; cases h
  | bool b => simp only [parseNull] at h; cases h
  | arr xs => simp only [parseNull] at h; cases h
  | obj kvs => simp only [parseNull] at h; cases h

theorem parseElems_length (f : String → Json → Except ParseError Json) (path : String) :
    ∀ (xs : List Json) (i : Nat) (ys : List Json),
      parseElems f path xs i = Except.ok ys → ys.length = xs.length := by
  intro xs
  induction xs with
  | nil =>
    intro i ys h
    cases h
    rfl
  | cons x xs ih =>
    intro i ys h
    simp only [parseElems] at h
    cases hx : f (path ++ "[" ++ toString i ++ "]") x with
    | error e => simp only [hx] at h; cases h
    | ok y =>
      simp only [hx] at h
      cases hr : parseElems f path xs (i + 1) with
      | error e => simp only [hr] at h; cases h
      | ok ys' =>
        simp only [hr] at h
        cases h
        simp [List.length_cons, ih (i + 1) ys' hr]

/-- Element revalidation: if the element validator is idempotent on its
successes, so is the per-element pass of `parseArray` (paths line up because
the output has the same indices as the input). -/
theorem parseElems_idem (f : String → Json → Except ParseError Json)
    (hf : ∀ p x y, f p x = Except.ok y → f p y = Except.ok y) (path : String) :
    ∀ (xs : List Json) (i : Nat) (ys : List Json),
      parseElems f path xs i = Except.ok ys →
      parseElems f path ys i = Except.ok ys := by
  intro xs
  induction xs with
  | nil =>
    intro i ys h
    cases h
    rfl
  | cons x xs ih =>
    intro i ys h
    simp only [parseElems] at h
    cases hx : f (path ++ "[" ++ toString i ++ "]") x with
    | error e => simp only [hx] at h; cases h
    | ok y =>
      simp only [hx] at h
      cases hr : parseElems f path xs (i + 1) with
      | error e => simp only [hr] at h; cases h
      | ok ys' =>
        simp only [hr] at h
        cases h
        show parseElems f path (y :: ys') i = _
        simp only [parseElems, hf _ _ _ hx, ih (i + 1) ys' hr]

mutual
/-- The well-formedness a schema needs for validation to be idempotent: every
default value, anywhere in the schema, validates (at any path) to itself
under its property's schema, and every object level has distinct property
keys (which the TypeScript `Record` type of `ObjectSchema.properties`
guarantees). -/
def GoodSchema (F : Formats) : Schema → Prop
  | Schema.array items _ _ => GoodSchema F items
  | Schema.object props _ => (keysOf props).Nodup ∧ GoodProps F props
  | _ => True

/-- `GoodSchema` on a property list: each entry's default is a fixed point of
its schema's validation, and the entry's schema and the remaining entries are
themselves good. -/
def GoodProps (F : Formats) : Props → Prop
  | Props.nil => True
  | Props.cons _ ps dflt rest =>
    (∀ (d : Json) (path : String), dflt = some d → parseAny F ps path d = Except.ok d) ∧
    GoodSchema F ps ∧ GoodProps F rest
end

mutual
/-- Validation is idempotent on its own output, for schemas whose defaults
are fixed points of their own validation and whose object keys are distinct
(any other schema with defaults can break idempotence, see the
counterexample). -/
theorem parseAny_idem (F : Formats) :
    (s : Schema) → GoodSchema F s → ∀ (path : String) (input v : Json),
      parseAny F s path input = Except.ok v → parseAny F s path v = Except.ok v
  | Schema.string minL maxL fmt en => by
    intro _ path input v h
    simp only [parseAny] at h ⊢
    have hv := parseString_ok F minL maxL fmt en path input v h
    subst hv
    exact h
  | Schema.number mi ma en => by
    intro _ path input v h
    simp only [parseAny] at h ⊢
    have hv := parseNumber_ok mi ma en path input v h
    subst hv
    exact h
  | Schema.integer mi ma en => by
    intro _ path input v h
    simp only [parseAny] at h ⊢
    have hv := parseInteger_ok mi ma en path input v h
    subst hv
    exact h
  | Schema.boolean => by
    intro _ path input v h
    simp only [parseAny] at h ⊢
    have hv := parseBoolean_ok path input v h
    subst hv
    exact h
  | Schema.null => by
    intro _ path input v h
    simp only [parseAny] at h ⊢
    have hv := parseNull_ok path input v h
    subst hv
    exact h
  | Schema.array items minI maxI => by
    intro hs path input v h
    simp only [GoodSchema] at hs
    simp only [parseAny] at h
    cases input with
    | arr xs =>
      by_cases hminv : minBoundViolation minI xs.length = true
      · simp only [hminv, if_true] at h
        cases h
      · have hminv0 : minBoundViolation minI xs.length = false := by simpa using hminv
        by_cases hmaxv : maxBoundViolation maxI xs.length = true
        · simp only [hminv0, Bool.false_eq_true, if_false, hmaxv, if_true] at h
          cases h
        · have hmaxv0 : maxBoundViolation maxI xs.length = false := by simpa using hmaxv
          simp only [hminv0, hmaxv0, Bool.false_eq_true, if_false] at h
          cases hpe : parseElems (parseAny F items) path xs 0 with
          | error e => simp only [hpe] at h; cases h
          | ok ys =>
            simp only [hpe] at h
            cases h
            have hlen := parseElems_length (parseAny F items) path xs 0 ys hpe
            have hminv' : minBoundViolation minI ys.length = false := by
              rw [hlen]; exact hminv0
            have hmaxv' : maxBoundViolation maxI ys.length = false := by
              rw [hlen]; exact hmaxv0
            have hpe' := parseElems_idem (parseAny F items)
              (fun p x y hxy => parseAny_idem F items hs p x y hxy) path xs 0 ys hpe
            simp only [parseAny, hminv', hmaxv', Bool.false_eq_true, if_false, hpe']
    | str s => cases h
    | num q => cases h
    | bool b => cases h
    | null => cases h
    | obj kvs => cases h
  | Schema.object props req => by
    intro hs path input v h
    simp only [GoodSchema] at hs
    obtain ⟨hnd, hgp⟩ := hs
    simp only [parseAny] at h
    by_cases hobj : isJsObject input = true
    · simp only [hobj, if_true] at h
      cases hpp : parseProps F props req path input [] with
      | error e => simp only [hpp] at h; cases h
      | ok kvs =>
        simp only [hpp] at h
        cases h
        have hrun2 := parseProps_idem F props req path input [] kvs hgp hnd
          (fun k _ => rfl) hpp
        simp only [parseAny, isJsObject, if_true, hrun2]
    · have hobj0 : isJsObject input = false := by simpa using hobj
      simp only [hobj0, Bool.false_eq_true, if_false] at h
      cases h

/-- The `parseObject` fold revalidates its own output to itself: looking each
declared key up in the completed output either finds the value the first run
computed (itself a fixed point, by idempotence of the entry's schema or the
good-default condition) or finds nothing for keys the first run skipped. -/
theorem parseProps_idem (F : Formats) :
    (props : Props) → ∀ (req : Option (List String)) (path : String) (input : Json)
      (acc out : List (String × Json)),
      GoodProps F props →
      (keysOf props).Nodup →
      (∀ k, k ∈ keysOf props → lookupKV acc k = none) →
      parseProps F props req path input acc = Except.ok out →
      parseProps F props req path (Json.obj out) acc = Except.ok out
  | Props.nil => by
    intro req path input acc out _ _ _ h
    simp only [parseProps] at h ⊢
    exact h
  | Props.cons key ps dflt rest => by
    intro req path input acc out hgp hnd hacc hrun
    simp only [GoodProps] at hgp
    obtain ⟨hdflt, hps, hrest⟩ := hgp
    simp only [keysOf, List.nodup_cons] at hnd
    obtain ⟨hnmem, hndrest⟩ := hnd
    have hacckey : lookupKV acc key = none :=
      hacc key (show key ∈ key :: keysOf rest from List.mem_cons_self _ _)
    have haccrest : ∀ k, k ∈ keysOf rest → lookupKV acc k = none := fun k hk =>
      hacc k (show k ∈ key :: keysOf rest from List.mem_cons_of_mem _ hk)
    cases hget : jsGet input key with
    | none =>
      by_cases hreq : requiredContains req key = true
      · simp only [parseProps, hget, hreq, if_true] at hrun
        cases hrun
      · have hreq0 : requiredContains req key = false := by simpa using hreq
        cases dflt with
        | some d =>
          simp only [parseProps, hget, hreq0, Bool.false_eq_true, if_false] at hrun
          have hout : lookupKV out key = some d := by
            rw [parseProps_lookup_preserved F rest req path input (jsSet acc key d) out
              key hnmem hrun]
            exact lookupKV_jsSet_self acc key d
          simp only [parseProps, jsGet_obj, hout,
            hdflt d (path ++ "." ++ key) rfl]
          exact parseProps_idem F rest req path input (jsSet acc key d) out hrest hndrest
            (fun k hk => by
              have hne : k ≠ key := fun hkk => hnmem (hkk ▸ hk)
              rw [lookupKV_jsSet_ne acc key d k hne]
              exact haccrest k hk)
            hrun
        | none =>
          simp only [parseProps, hget, hreq0, Bool.false_eq_true, if_false] at hrun
          have hout : lookupKV out key = none := by
            rw [parseProps_lookup_preserved F rest req path input acc out key hnmem hrun]
            exact hacckey
          simp only [parseProps, jsGet_obj, hout, hreq0, Bool.false_eq_true, if_false]
          exact parseProps_idem F rest req path input acc out hrest hndrest haccrest hrun
    | some v =>
      simp only [parseProps, hget] at hrun
      cases hpa : parseAny F ps (path ++ "." ++ key) v with
      | error e => simp only [hpa] at hrun; cases hrun
      | ok y =>
        simp only [hpa] at hrun
        have hout : lookupKV out key = some y := by
          rw [parseProps_lookup_preserved F rest req path input (jsSet acc key y) out
            key hnmem hrun]
          exact lookupKV_jsSet_self acc key y
        have hy : parseAny F ps (path ++ "." ++ key) y = Except.ok y :=
          parseAny_idem F ps hps (path ++ "." ++ key) v y hpa
        simp only [parseProps, jsGet_obj, hout, hy]
        exact parseProps_idem F rest req path input (jsSet acc key y) out hrest hndrest
          (fun k hk => by
            have hne : k ≠ key := fun hkk => hnmem (hkk ▸ hk)
            rw [lookupKV_jsSet_ne acc key y k hne]
            exact haccrest k hk)
          hrun
end

/-- Counterexample to C4 as stated: a schema whose default (`"ab"`) violates
its own property schema (`maxLength: 1`).  The first validation of `{}`
succeeds and injects the default unvalidated; revalidating that output fails,
so validation is not idempotent on its own output. -/
theorem parse_not_idempotent_with_bad_default :
    parse F0 (Schema.object
        (Props.cons "a" (Schema.string none (some 1) none none) (some (Json.str "ab"))
          Props.nil)
        none)
      (Json.obj []) = Except.ok (Json.obj [("a", Json.str "ab")]) ∧
    parse F0 (Schema.object
        (Props.cons "a" (Schema.string none (some 1) none none) (some (Json.str "ab"))
          Props.nil)
        none)
      (Json.obj [("a", Json.str "ab")]) =
      Except.error ⟨"string is too long: 2 > 1", ".a", Json.str "ab"⟩ :=
  ⟨rfl, rfl⟩

/-- C4 (amended): validation is idempotent on its own output for every schema
whose defaults each validate to themselves under their property schema and
whose object property keys are distinct (`GoodSchema`; the key condition is
automatic for TypeScript `Record`s and the default condition holds in
particular for every schema without defaults). -/
theorem parse_idempotent_of_good (F : Formats) (s : Schema) (hs : GoodSchema F s)
    (input v : Json) (h : parse F s input = Except.ok v) : parse F s v = Except.ok v :=
  parseAny_idem F s hs "" input v h

/-- Witness for the amended C4: revalidating the (already normal) output of a
plain object-with-default validation returns it unchanged. -/
theorem parse_idempotent_of_good_witness :
    parse F0 (Schema.object
        (Props.cons "a" (Schema.string none none none none) (some (Json.str "d"))
          Props.nil)
        none)
      (Json.obj [("a", Json.str "d")]) = Except.ok (Json.obj [("a", Json.str "d")]) :=
  parse_idempotent_of_good F0
    (Schema.object
      (Props.cons "a" (Schema.string none none none none) (some (Json.str "d"))
        Props.nil)
      none)
    (by
      refine ⟨by simp [keysOf], ?_, trivial, trivial⟩
      intro d path hd
      cases hd
      rfl)
    (Json.obj []) (Json.obj [("a", Json.str "d")]) rfl
